import Mathlib

/-! articles-service: bounded top-K storage, rankability filter, page distribution

A shallow embedding of the Go sources

* `internal/storage/minheap.go`   (`MinHeap`, its `Len`/`Less`/`Swap`/`Push`),
* `internal/storage/storage.go`   (`New`, `Insert`, `TopArticlesNames`),
* `internal/articlesprocessor/processor.go` (`processArticle`, `sendPagesToProcess`),
* `internal/app.go`               (the limit validation of `NewApp`),

together with the standard-library pieces the storage is built on:
`container/heap` (`up`, `down`, `Init`, `Push`, `Fix`, transcribed from the Go
library), `sort.Slice` (taken as a parameter with its contract) and the capacity
check of `make` (the runtime's `makeslice`).

Conventions.  A Go slice is a `List`; a possibly-nil slice is an `Option (List _)`
with `none` the nil slice.  Go `int` is `Int` (with an explicit 64-bit wrap where
arithmetic can overflow), `uint64` is `Nat`, slice indices are `Nat`.  A run-time
panic or a `log.Fatal` is an `Except.error`.
-/

set_option autoImplicit false

namespace ArticlesService

/-! ## The program -/

/-! ### Faults -/

/-- The ways a call can fail to return: run-time panics and fatal start-up exits. -/
inductive Fault where
  /-- Go `panic: runtime error: index out of range` -/
  | indexOutOfRange
  /-- Go `panic: runtime error: makeslice: cap out of range` -/
  | makesliceCapOutOfRange
  /-- Go `log.Fatal("please provide limit of articles")` -/
  | fatalNoLimit
  /-- Go `log.Fatalf("max limit is out of range: %v", maxLimit)` -/
  | fatalLimitOutOfRange
  deriving DecidableEq, Repr

/-! ### `internal/storage/minheap.go` -/

namespace storage

/-- Go `storage.Article`: `Name string`, `NumComments uint64`. -/
structure Article where
  Name : String
  NumComments : Nat
  deriving DecidableEq, Repr, Inhabited

/-- Go `type MinHeap []Article` (a non-nil slice value). -/
abbrev MinHeap := List Article

/-- The element `h[i]` for an index that is in range (every index the heap routines pass
is); the default is never read there. -/
def MinHeap.at (h : MinHeap) (i : Nat) : Article := h.getD i default

/-- Go `func (h MinHeap) Len() int { return len(h) }` -/
def MinHeap.Len (h : MinHeap) : Nat := h.length

/-- Go `func (h MinHeap) Less(i, j int) bool { return h[i].NumComments < h[j].NumComments }` -/
def MinHeap.Less (h : MinHeap) (i j : Nat) : Bool :=
  decide ((h.at i).NumComments < (h.at j).NumComments)

/-- Go `func (h MinHeap) Swap(i, j int) { h[i], h[j] = h[j], h[i] }` -/
def MinHeap.Swap (h : MinHeap) (i j : Nat) : MinHeap :=
  (h.set i (h.at j)).set j (h.at i)

/-- Go `func (h *MinHeap) Push(x any) { *h = append(*h, x.(Article)) }` -/
def MinHeap.Push (h : MinHeap) (x : Article) : MinHeap := h ++ [x]

/-- Go runtime `maxAlloc`, the largest number of bytes `makeslice` accepts:
`1 << 48` on the 64-bit platforms with 48 heap address bits (linux/amd64). -/
def maxAlloc : Int := 2 ^ 48

/-- Size in bytes of one `Article` on a 64-bit platform: a string header (16)
and a `uint64` (8). -/
def articleSize : Int := 24

/-- Go `NewMinHeap(size) = make(MinHeap, 0, size)`: an empty non-nil slice.  The
runtime's `makeslice` panics with `cap out of range` when the capacity is
negative or when `size` elements take more than `maxAlloc` bytes.  (A capacity
that passes this check can still exhaust the memory of the machine; that fatal
error of the runtime is outside the model.) -/
def NewMinHeap (size : Int) : Except Fault MinHeap :=
  if size < 0 ∨ articleSize * size > maxAlloc then .error .makesliceCapOutOfRange
  else .ok []

end storage

/-! ### `container/heap` (Go standard library), instantiated at `MinHeap` -/

namespace heap
open storage

/-- The loop of `heap.up`:
```go
for {
    i := (j - 1) / 2 // parent
    if i == j || !h.Less(j, i) { break }
    h.Swap(i, j)
    j = i
}
```
The first argument bounds the number of iterations; `j + 1` always suffices
because `j` strictly decreases.  (`(j - 1) / 2` is `0` for `j = 0` both in Go,
whose division truncates toward zero, and on `Nat`.) -/
def upLoop : Nat → MinHeap → Nat → MinHeap
  | 0, h, _ => h
  | fuel + 1, h, j =>
    let i := (j - 1) / 2
    if i = j ∨ h.Less j i = false then h
    else upLoop fuel (h.Swap i j) i

/-- Go `func up(h Interface, j int)` -/
def up (h : MinHeap) (j : Nat) : MinHeap := upLoop (j + 1) h j

/-- The loop of `heap.down`, returning the heap and the final `i`:
```go
for {
    j1 := 2*i + 1
    if j1 >= n || j1 < 0 { break }
    j := j1 // left child
    if j2 := j1 + 1; j2 < n && h.Less(j2, j1) { j = j2 }
    if !h.Less(j, i) { break }
    h.Swap(i, j)
    i = j
}
```
The first argument bounds the number of iterations; `n` always suffices because
`i` strictly increases and the loop breaks once `2*i + 1 >= n`.  (The test
`j1 < 0` guards against `int` overflow, which no slice index reaches.) -/
def downLoop : Nat → MinHeap → Nat → Nat → MinHeap × Nat
  | 0, h, i, _ => (h, i)
  | fuel + 1, h, i, n =>
    let j1 := 2 * i + 1
    if n ≤ j1 then (h, i)
    else
      let j := if j1 + 1 < n ∧ h.Less (j1 + 1) j1 = true then j1 + 1 else j1
      if h.Less j i = false then (h, i)
      else downLoop fuel (h.Swap i j) j n

/-- Go `func down(h Interface, i0, n int) bool`: the heap after the loop and
`i > i0`. -/
def down (h : MinHeap) (i0 n : Nat) : MinHeap × Bool :=
  let r := downLoop n h i0 n
  (r.1, decide (i0 < r.2))

/-- Go `func Init(h Interface)`: `for i := n/2 - 1; i >= 0; i-- { down(h, i, n) }`. -/
def Init (h : MinHeap) : MinHeap :=
  let n := h.Len
  ((List.range (n / 2)).reverse).foldl (fun acc i => (down acc i n).1) h

/-- Go `func Push(h Interface, x any) { h.Push(x); up(h, h.Len()-1) }` -/
def Push (h : MinHeap) (x : Article) : MinHeap :=
  let h1 := h.Push x
  up h1 (h1.Len - 1)

/-- Go `func Fix(h Interface, i int) { if !down(h, i, h.Len()) { up(h, i) } }` -/
def Fix (h : MinHeap) (i : Nat) : MinHeap :=
  let r := down h i h.Len
  if r.2 = false then up r.1 i else r.1

end heap

/-! ### `sort.Slice` (Go standard library) -/

/-- What `sort.Slice` asks of its `less`: a strict weak ordering. -/
structure StrictWeak {α : Type} (less : α → α → Bool) : Prop where
  irrefl : ∀ a, less a a = false
  trans : ∀ a b c, less a b = true → less b c = true → less a c = true
  incompTrans : ∀ a b c, less a b = false → less b c = false → less a c = false

/-- Go `sort.Slice(x, less)`: the library routine (a pattern-defeating quicksort, not
stable) is taken as a parameter with its contract: the result is a rearrangement
of the slice, and no later element is `less` than an earlier one. -/
structure SliceSort where
  sort : {α : Type} → (α → α → Bool) → List α → List α
  perm : ∀ {α : Type} (less : α → α → Bool) (l : List α), (sort less l).Perm l
  ordered : ∀ {α : Type} (less : α → α → Bool) (l : List α), StrictWeak less →
    (sort less l).Pairwise (fun a b => less b a = false)

/-- Stable insertion sort, which is what `sort.Slice` does on slices of at most 12
elements: one concrete `sort.Slice`. -/
def insertionSortSlice {α : Type} (less : α → α → Bool) (l : List α) : List α :=
  l.insertionSort (fun a b => less b a = false)

/-! ### `internal/storage/storage.go` -/

namespace storage

/-- Go `Storage`: `limit int` and `data MinHeap`, where `none` is the nil slice
(the logger and the mutex carry no state of interest). -/
structure Storage where
  limit : Int
  data : Option MinHeap
  deriving DecidableEq, Repr

/-- The elements of the slice `s.data` (none for the nil slice). -/
def Storage.elems (s : Storage) : MinHeap := s.data.getD []

/-- Go `func New(logger, limit) *Storage`: `h := NewMinHeap(limit); heap.Init(&h)`. -/
def New (limit : Int) : Except Fault Storage :=
  match NewMinHeap limit with
  | .error e => .error e
  | .ok h => .ok { limit := limit, data := some (heap.Init h) }

/-- Go `func (s *Storage) Insert(a Article)`:
```go
if len(s.data) < s.limit { heap.Push(&s.data, a); return }
minElem := s.data[0]
if a.NumComments <= minElem.NumComments { return }
s.data[0] = a
heap.Fix(&s.data, 0)
```
Reading `s.data[0]` of an empty slice panics. -/
def Storage.Insert (s : Storage) (a : Article) : Except Fault Storage :=
  if (s.elems.length : Int) < s.limit then
    .ok { s with data := some (heap.Push s.elems a) }
  else
    match s.elems with
    | [] => .error .indexOutOfRange
    | minElem :: rest =>
      if a.NumComments ≤ minElem.NumComments then .ok s
      else .ok { s with data := some (heap.Fix (a :: rest) 0) }

/-- The slice `s.data` right after the `sort.Slice` call of `TopArticlesNames`:
`sort.Slice(s.data, func(i, j int) bool { return s.data[i].NumComments > s.data[j].NumComments })`. -/
def Storage.sortedData (srt : SliceSort) (s : Storage) : List Article :=
  srt.sort (fun a b => decide (a.NumComments > b.NumComments)) s.elems

/-- Go `func (s *Storage) TopArticlesNames() []string`: sort, copy the names out,
`s.data = nil`; returns the names and the storage afterwards. -/
def Storage.TopArticlesNames (srt : SliceSort) (s : Storage) : List String × Storage :=
  ((s.sortedData srt).map Article.Name, { s with data := none })

/-- Successive `Insert` calls, stopping at the first panic. -/
def Storage.insertAll (s : Storage) : List Article → Except Fault Storage
  | [] => .ok s
  | a :: as =>
    match s.Insert a with
    | .error e => .error e
    | .ok s1 => Storage.insertAll s1 as

/-- A fresh `New(_, limit)` followed by the insertion of `xs`, one after another. -/
def fill (limit : Int) (xs : List Article) : Except Fault Storage :=
  match New limit with
  | .error e => .error e
  | .ok s => s.insertAll xs

/-! ### Specification of the retained scores -/

/-- Specification side: the `K` largest `NumComments` values among `xs`, largest
first. -/
def topScores (K : Nat) (xs : List Article) : List Nat :=
  ((xs.map Article.NumComments).insertionSort (fun a b => a ≥ b)).take K

/-- Specification side: no tie across the cut-off.  Every `NumComments` value
among the `K` largest occurs among the inserted articles exactly as often as
among the `K` largest, so no article left out shares its score with one of the
top `K`.  (Ties within the top `K`, or among the articles left out, are allowed.) -/
def noTieAtCutOff (K : Nat) (xs : List Article) : Prop :=
  ∀ v ∈ topScores K xs, (xs.map Article.NumComments).count v = (topScores K xs).count v

end storage

/-! ### Heap order and the loop invariants of `up` and `down` -/

namespace heap
open storage

/-- The ranking key stored at index `k`. -/
def key (h : MinHeap) (k : Nat) : Nat := (h.at k).NumComments

/-- Min-heap order: no entry is smaller than its parent. -/
def HeapOrd (h : MinHeap) : Prop :=
  ∀ k, 0 < k → k < h.length → key h ((k - 1) / 2) ≤ key h k

/-- Heap order everywhere except possibly between `j` and its parent; the
children of `j` already respect the parent of `j`. -/
def UpInv (h : MinHeap) (j : Nat) : Prop :=
  (∀ k, 0 < k → k < h.length → k ≠ j → key h ((k - 1) / 2) ≤ key h k) ∧
  (∀ k, 0 < k → k < h.length → (k - 1) / 2 = j → 0 < j → key h ((j - 1) / 2) ≤ key h k)

/-- Heap order everywhere except possibly between `i` and its children; the
children of `i` already respect the parent of `i`. -/
def DownInv (h : MinHeap) (i : Nat) : Prop :=
  (∀ k, 0 < k → k < h.length → (k - 1) / 2 ≠ i → key h ((k - 1) / 2) ≤ key h k) ∧
  (∀ k, 0 < k → k < h.length → (k - 1) / 2 = i → 0 < i → key h ((i - 1) / 2) ≤ key h k)

/-- The child `j` that one iteration of `down` selects at `i`. -/
def minChild (h : MinHeap) (i n : Nat) : Nat :=
  if 2 * i + 1 + 1 < n ∧ h.Less (2 * i + 1 + 1) (2 * i + 1) = true then 2 * i + 1 + 1
  else 2 * i + 1

end heap

namespace storage
open heap

/-- What holds of a storage of capacity `K` into which `xs` has been inserted. -/
structure Reach (K : Nat) (xs : List Article) (s : Storage) : Prop where
  limit_eq : s.limit = (K : Int)
  ord : HeapOrd s.elems
  len : s.elems.length = min xs.length K
  split : ∃ dropped : List Article, (s.elems ++ dropped).Perm xs ∧
    ∀ r ∈ dropped, ∀ d ∈ s.elems, r.NumComments ≤ d.NumComments

end storage

/-! ### A concrete `sort.Slice` -/

/-- Insertion sort meets the `sort.Slice` contract. -/
def insertionSorter : SliceSort where
  sort := fun less l => insertionSortSlice less l
  perm := fun less l => List.perm_insertionSort (fun a b => less b a = false) l
  ordered := by
    intro α less l sw
    haveI : IsTotal α (fun a b => less b a = false) := ⟨by
      intro a b
      cases hba : less b a
      · exact Or.inl rfl
      · cases hab : less a b
        · exact Or.inr rfl
        · have := sw.trans a b a hab hba
          rw [sw.irrefl a] at this
          exact absurd this (by decide)⟩
    haveI : IsTrans α (fun a b => less b a = false) := ⟨by
      intro a b c hab hbc
      exact sw.incompTrans c b a hbc hab⟩
    exact List.sorted_insertionSort (fun a b => less b a = false) l

/-! ### `internal/articlesapi/dto.go`, `internal/articlesprocessor/processor.go`,
`internal/app.go` -/

/-- A non-nil Go `error` value (its message). -/
abbrev GoError := String

namespace articlesapi

/-- Go `articlesapi.Article`; a pointer field is an `Option`, `nil` being `none`. -/
structure Article where
  Title : Option String
  URL : String
  Author : String
  NumComments : Option Int
  StoryID : Option Int
  StoryTitle : Option String
  StoryURL : Option String
  ParentID : Option Int
  CreatedAt : Option Int
  deriving DecidableEq, Repr

end articlesapi

namespace articlesprocessor
open storage

/-- The conversion `uint64(x)` of a Go `int`: the value modulo `2^64`. -/
def uint64 (x : Int) : Nat := (x % 2 ^ 64).toNat

/-- Go `int` arithmetic wraps around at 64 bits (two's complement). -/
def wrapInt64 (x : Int) : Int := (x + 2 ^ 63) % 2 ^ 64 - 2 ^ 63

/-- Go `func (p *ArticlesProcessor) processArticle(article *articlesapi.Article) error`
on the processor's storage `st`: the returned `error` and the storage afterwards.
```go
a := storage.Article{}
if article.Title != nil {
    a.Name = *article.Title
} else if article.Title == nil && article.StoryTitle != nil {
    a.Name = *article.StoryTitle
} else if article.Title == nil && article.StoryTitle == nil {
    return nil
}
if article.NumComments == nil { return nil }
a.NumComments = uint64(*article.NumComments)
p.storage.Insert(a)
return nil
``` -/
def processArticle (st : Storage) (article : articlesapi.Article) :
    Except Fault (Option GoError × Storage) :=
  let a : storage.Article := { Name := "", NumComments := 0 }
  let named : Option storage.Article :=
    match article.Title, article.StoryTitle with
    | some title, _ => some { a with Name := title }
    | none, some storyTitle => some { a with Name := storyTitle }
    | none, none => none
  match named with
  | none => .ok (none, st)
  | some a1 =>
    match article.NumComments with
    | none => .ok (none, st)
    | some c =>
      match st.Insert { a1 with NumComments := uint64 c } with
      | .error e => .error e
      | .ok st1 => .ok (none, st1)

/-- What the goroutine of `sendPagesToProcess` has done: the page indices sent
on `p.in` in order, whether the deferred `close(p.in)` has run, and the value
the goroutine returned (`none` while it is still in its loop). -/
structure SendTrace where
  sent : List Int
  closed : Bool
  returned : Option (Option GoError)
  deriving DecidableEq, Repr

/-- The loop of `sendPagesToProcess`, with the indices sent so far:
```go
for pages != 0 {
    // skipping first page
    if pages == 1 { break }
    p.in <- pages
    pages--
}
```
The first argument bounds the number of iterations; the flag tells whether the
loop was left (`true`) or the bound was reached first (`false`). -/
def sendLoop : Nat → Int → List Int → List Int × Bool
  | 0, _, sent => (sent, false)
  | fuel + 1, pages, sent =>
    if pages = 0 then (sent, true)
    else if pages = 1 then (sent, true)
    else sendLoop fuel (wrapInt64 (pages - 1)) (sent ++ [pages])

/-- Go `func (p *ArticlesProcessor) sendPagesToProcess(pages int, g *errgroup.Group)`:
the goroutine runs the loop, then `close(p.in)` (deferred) and `return nil`.
Every send is taken to be received (the channel is drained by the fetchers). -/
def sendPagesToProcess (fuel : Nat) (pages : Int) : SendTrace :=
  let r := sendLoop fuel pages []
  { sent := r.1, closed := r.2, returned := if r.2 then some none else none }

/-- Go `ArticlesProcessor`: its `limit` and `storage` (logger, API client and
channels carry no state of interest here). -/
structure ArticlesProcessor where
  limit : Int
  storage : Storage
  deriving DecidableEq, Repr

/-- Go `func New(logger, limit, storage) *ArticlesProcessor` -/
def New (limit : Int) (st : Storage) : ArticlesProcessor := { limit := limit, storage := st }

end articlesprocessor

namespace internal

/-- Go `const maxLimit = 100` -/
def maxLimit : Int := 100

/-- Go `App`: the processor it owns. -/
structure App where
  proc : articlesprocessor.ArticlesProcessor
  deriving DecidableEq, Repr

/-- Go `func NewApp() (*App, error)` as a function of the parsed `-l` flag:
```go
if limit == 0 { log.Fatal("please provide limit of articles") }
if limit > maxLimit { log.Fatalf("max limit is out of range: %v", maxLimit) }
st := storage.New(logger, limit)
ap := articlesprocessor.New(logger, limit, st)
return &App{...}, nil
``` -/
def NewApp (limit : Int) : Except Fault App :=
  if limit = 0 then .error .fatalNoLimit
  else if limit > maxLimit then .error .fatalLimitOutOfRange
  else
    match storage.New limit with
    | .error e => .error e
    | .ok st => .ok { proc := articlesprocessor.New limit st }

end internal

namespace articlesprocessor
open storage

/-- The page numbers `n, n-1, ..., 2`. -/
def pagesDownToTwo (n : Nat) : List Int :=
  (List.range (n - 1)).map (fun (k : Nat) => (n : Int) - (k : Int))

end articlesprocessor

/-! ## Theorems -/

/-! ### `container/heap`: `Swap`, `up`, `down` keep the entries and restore the heap order -/

namespace heap
open storage

theorem length_Swap (h : MinHeap) (i j : Nat) : (h.Swap i j).length = h.length := by
  simp [MinHeap.Swap]

theorem at_set (h : MinHeap) (i k : Nat) (x : Article) (hi : i < h.length) :
    MinHeap.at (h.set i x) k = if k = i then x else h.at k := by
  unfold MinHeap.at
  simp only [List.getD_eq_getElem?_getD, List.getElem?_set]
  by_cases h1 : k = i
  · subst h1; simp [hi]
  · simp [h1, Ne.symm h1]

theorem at_Swap (h : MinHeap) (i j k : Nat) (hi : i < h.length) (hj : j < h.length) :
    (h.Swap i j).at k = if k = j then h.at i else if k = i then h.at j else h.at k := by
  unfold MinHeap.Swap
  rw [at_set _ j k _ (by simpa using hj), at_set h i k _ hi]

theorem key_Swap (h : MinHeap) (i j k : Nat) (hi : i < h.length) (hj : j < h.length) :
    key (h.Swap i j) k = if k = j then key h i else if k = i then key h j else key h k := by
  unfold key
  rw [at_Swap h i j k hi hj]
  split_ifs <;> rfl

theorem count_set (h : MinHeap) (i : Nat) (x a : Article) (hi : i < h.length) :
    (h.set i x).count a + (if h.at i = a then 1 else 0)
      = h.count a + (if x = a then 1 else 0) := by
  induction h generalizing i with
  | nil => simp at hi
  | cons b t ih =>
    cases i with
    | zero =>
      simp only [List.set_cons_zero, List.count_cons, MinHeap.at, List.getD_cons_zero, beq_iff_eq]
      omega
    | succ i =>
      have hi1 : i < t.length := by simpa using hi
      have := ih i hi1
      simp only [List.set_cons_succ, List.count_cons, MinHeap.at, List.getD_cons_succ] at this ⊢
      omega

theorem Swap_perm (h : MinHeap) (i j : Nat) (hi : i < h.length) (hj : j < h.length) :
    (h.Swap i j).Perm h := by
  rw [List.perm_iff_count]
  intro a
  have h1 := count_set h i (h.at j) a hi
  have hj1 : j < (h.set i (h.at j)).length := by simpa using hj
  have h2 := count_set (h.set i (h.at j)) j (h.at i) a hj1
  have h3 : MinHeap.at (h.set i (h.at j)) j = h.at j := by
    rw [at_set h i j _ hi]
    split_ifs with hij
    · rfl
    · rfl
  rw [h3] at h2
  unfold MinHeap.Swap
  omega

theorem Less_eq_true_iff (h : MinHeap) (i j : Nat) :
    h.Less i j = true ↔ key h i < key h j := by
  simp [MinHeap.Less, key]

theorem Less_eq_false_iff (h : MinHeap) (i j : Nat) :
    h.Less i j = false ↔ key h j ≤ key h i := by
  simp [MinHeap.Less, key]

theorem UpInv_Swap (h : MinHeap) (j : Nat) (hj : j < h.length) (hne : (j - 1) / 2 ≠ j)
    (hlt : key h j < key h ((j - 1) / 2)) (inv : UpInv h j) :
    UpInv (h.Swap ((j - 1) / 2) j) ((j - 1) / 2) := by
  obtain ⟨A, B⟩ := inv
  have hi : (j - 1) / 2 < h.length := by omega
  have hj0 : 0 < j := by omega
  refine ⟨?_, ?_⟩
  · intro k hk0 hkl hki
    rw [length_Swap] at hkl
    rw [key_Swap h _ _ _ hi hj, key_Swap h _ _ _ hi hj]
    by_cases hkj : k = j
    · subst hkj
      simp only [if_true, if_neg hne]
      omega
    · rw [if_neg hkj, if_neg hki]
      have hA := A k hk0 hkl hkj
      by_cases hp1 : (k - 1) / 2 = j
      · rw [if_pos hp1]
        exact B k hk0 hkl hp1 hj0
      · rw [if_neg hp1]
        by_cases hp2 : (k - 1) / 2 = (j - 1) / 2
        · rw [if_pos hp2]
          rw [hp2] at hA
          omega
        · rw [if_neg hp2]
          exact hA
  · intro k hk0 hkl hpar hi0
    rw [length_Swap] at hkl
    rw [key_Swap h _ _ _ hi hj, key_Swap h _ _ _ hi hj]
    have hpp1 : ((j - 1) / 2 - 1) / 2 ≠ j := by omega
    have hpp2 : ((j - 1) / 2 - 1) / 2 ≠ (j - 1) / 2 := by omega
    rw [if_neg hpp1, if_neg hpp2]
    have hAi := A ((j - 1) / 2) hi0 hi hne
    by_cases hkj : k = j
    · rw [if_pos hkj]
      exact hAi
    · have hki : k ≠ (j - 1) / 2 := by omega
      rw [if_neg hkj, if_neg hki]
      have hA := A k hk0 hkl hkj
      rw [hpar] at hA
      omega

theorem upLoop_spec (fuel : Nat) : ∀ (h : MinHeap) (j : Nat), j < fuel → j < h.length →
    UpInv h j → HeapOrd (upLoop fuel h j) ∧ (upLoop fuel h j).Perm h := by
  induction fuel with
  | zero => intro h j hf; omega
  | succ fuel ih =>
    intro h j hf hj inv
    unfold upLoop
    simp only []
    split_ifs with hc
    · refine ⟨?_, List.Perm.refl _⟩
      intro k hk0 hkl
      by_cases hkj : k = j
      · subst hkj
        rcases hc with hc | hc
        · omega
        · exact (Less_eq_false_iff h _ _).1 hc
      · exact inv.1 k hk0 hkl hkj
    · have hne : (j - 1) / 2 ≠ j := fun e => hc (Or.inl e)
      have hlt : key h j < key h ((j - 1) / 2) := by
        rw [← Less_eq_true_iff]
        cases hL : h.Less j ((j - 1) / 2)
        · exact absurd (Or.inr hL) hc
        · rfl
      have hi : (j - 1) / 2 < h.length := by omega
      have := ih (h.Swap ((j - 1) / 2) j) ((j - 1) / 2) (by omega)
        (by rw [length_Swap]; exact hi) (UpInv_Swap h j hj hne hlt inv)
      exact ⟨this.1, this.2.trans (Swap_perm h _ _ hi hj)⟩

theorem downLoop_succ (fuel : Nat) (h : MinHeap) (i n : Nat) :
    downLoop (fuel + 1) h i n =
      if n ≤ 2 * i + 1 then (h, i)
      else if h.Less (minChild h i n) i = false then (h, i)
      else downLoop fuel (h.Swap i (minChild h i n)) (minChild h i n) n := rfl

theorem minChild_spec (h : MinHeap) (i : Nat) (hn : ¬ h.length ≤ 2 * i + 1) :
    (minChild h i h.length = 2 * i + 1 ∨ minChild h i h.length = 2 * i + 2) ∧
    minChild h i h.length < h.length ∧
    ∀ k, 0 < k → k < h.length → (k - 1) / 2 = i → key h (minChild h i h.length) ≤ key h k := by
  unfold minChild
  split_ifs with hc
  · obtain ⟨h1, h2⟩ := hc
    rw [Less_eq_true_iff] at h2
    refine ⟨Or.inr rfl, h1, ?_⟩
    intro k hk0 hkl hp
    have : k = 2 * i + 1 ∨ k = 2 * i + 1 + 1 := by omega
    rcases this with e | e
    · subst e; omega
    · subst e; exact Nat.le_refl _
  · refine ⟨Or.inl rfl, by omega, ?_⟩
    intro k hk0 hkl hp
    have : k = 2 * i + 1 ∨ k = 2 * i + 1 + 1 := by omega
    rcases this with e | e
    · subst e; exact Nat.le_refl _
    · subst e
      have hL : h.Less (2 * i + 1 + 1) (2 * i + 1) = false := by
        cases hL : h.Less (2 * i + 1 + 1) (2 * i + 1)
        · rfl
        · exact absurd ⟨hkl, hL⟩ hc
      exact (Less_eq_false_iff h _ _).1 hL

theorem DownInv_Swap (h : MinHeap) (i j : Nat) (hj : j < h.length)
    (hchild : j = 2 * i + 1 ∨ j = 2 * i + 2) (hlt : key h j < key h i)
    (hmin : ∀ k, 0 < k → k < h.length → (k - 1) / 2 = i → key h j ≤ key h k)
    (inv : DownInv h i) : DownInv (h.Swap i j) j := by
  obtain ⟨A, B⟩ := inv
  have hi : i < h.length := by omega
  have hpj : (j - 1) / 2 = i := by omega
  have hij : i ≠ j := by omega
  have hj0 : 0 < j := by omega
  refine ⟨?_, ?_⟩
  · intro k hk0 hkl hpar
    rw [length_Swap] at hkl
    rw [key_Swap h _ _ _ hi hj, key_Swap h _ _ _ hi hj, if_neg hpar]
    by_cases hkj : k = j
    · subst hkj
      rw [if_pos hpj, if_pos rfl]
      omega
    · rw [if_neg hkj]
      by_cases hki : k = i
      · subst hki
        have hp1 : (k - 1) / 2 ≠ k := by omega
        rw [if_neg hp1, if_pos rfl]
        exact B j hj0 hj hpj hk0
      · rw [if_neg hki]
        by_cases hp : (k - 1) / 2 = i
        · rw [if_pos hp]
          exact hmin k hk0 hkl hp
        · rw [if_neg hp]
          exact A k hk0 hkl hp
  · intro k hk0 hkl hpar _
    rw [length_Swap] at hkl
    rw [key_Swap h _ _ _ hi hj, key_Swap h _ _ _ hi hj, hpj, if_neg hij, if_pos rfl]
    have hkj : k ≠ j := by omega
    have hki : k ≠ i := by omega
    rw [if_neg hkj, if_neg hki]
    have hA := A k hk0 hkl (by omega)
    rw [hpar] at hA
    exact hA

theorem downLoop_spec (fuel : Nat) : ∀ (h : MinHeap) (i : Nat), h.length ≤ i + fuel →
    i < h.length → DownInv h i →
    HeapOrd (downLoop fuel h i h.length).1 ∧ (downLoop fuel h i h.length).1.Perm h := by
  induction fuel with
  | zero => intro h i hf hi; omega
  | succ fuel ih =>
    intro h i hf hi inv
    rw [downLoop_succ]
    split_ifs with hn hL
    · refine ⟨?_, List.Perm.refl _⟩
      show HeapOrd h
      intro k hk0 hkl
      exact inv.1 k hk0 hkl (by omega)
    · obtain ⟨hchild, hjl, hmin⟩ := minChild_spec h i hn
      refine ⟨?_, List.Perm.refl _⟩
      show HeapOrd h
      intro k hk0 hkl
      by_cases hp : (k - 1) / 2 = i
      · rw [hp]
        have h1 := hmin k hk0 hkl hp
        have h2 := (Less_eq_false_iff h _ _).1 hL
        omega
      · exact inv.1 k hk0 hkl hp
    · obtain ⟨hchild, hjl, hmin⟩ := minChild_spec h i hn
      have hlt : key h (minChild h i h.length) < key h i := by
        rw [← Less_eq_true_iff]
        cases hL2 : h.Less (minChild h i h.length) i
        · exact absurd hL2 hL
        · rfl
      have hinv := DownInv_Swap h i _ hjl hchild hlt hmin inv
      have := ih (h.Swap i (minChild h i h.length)) (minChild h i h.length)
        (by rw [length_Swap]; omega) (by rw [length_Swap]; exact hjl) hinv
      rw [length_Swap] at this
      exact ⟨this.1, this.2.trans (Swap_perm h _ _ hi hjl)⟩

theorem up_zero (h : MinHeap) : up h 0 = h := by
  simp [up, upLoop]

theorem HeapOrd_root_le (h : MinHeap) (ho : HeapOrd h) :
    ∀ k, k < h.length → key h 0 ≤ key h k := by
  intro k
  induction k using Nat.strong_induction_on with
  | _ k ih =>
    intro hk
    rcases Nat.eq_zero_or_pos k with e | hk0
    · subst e; exact Nat.le_refl _
    · have h1 := ih ((k - 1) / 2) (by omega) (by omega)
      have h2 := ho k hk0 hk
      omega

/-- Pushing onto a heap keeps the heap order and adds exactly the new entry. -/
theorem Push_spec (h : MinHeap) (x : Article) (ho : HeapOrd h) :
    HeapOrd (Push h x) ∧ (Push h x).Perm (x :: h) := by
  have hkey : ∀ k, k < h.length → key (h ++ [x]) k = key h k := by
    intro k hk
    simp [key, MinHeap.at, List.getD_eq_getElem?_getD, List.getElem?_append_left hk]
  have inv : UpInv (h ++ [x]) h.length := by
    refine ⟨?_, ?_⟩
    · intro k hk0 hkl hne
      have hkl2 : k < h.length := by simp at hkl; omega
      rw [hkey k hkl2, hkey _ (by omega)]
      exact ho k hk0 hkl2
    · intro k hk0 hkl hp _
      simp at hkl
      omega
  have := upLoop_spec (h.length + 1) (h ++ [x]) h.length (by omega) (by simp) inv
  have e : Push h x = upLoop (h.length + 1) (h ++ [x]) h.length := by
    simp [Push, up, MinHeap.Push, MinHeap.Len]
  rw [e]
  refine ⟨this.1, this.2.trans ?_⟩
  exact List.perm_append_comm

/-- Replacing the root and calling `Fix` at 0 keeps the heap order and the
entries. -/
theorem Fix_root_spec (a b : Article) (t : MinHeap) (ho : HeapOrd (b :: t)) :
    HeapOrd (Fix (a :: t) 0) ∧ (Fix (a :: t) 0).Perm (a :: t) := by
  have hkey : ∀ k, 0 < k → key (a :: t) k = key (b :: t) k := by
    intro k hk
    obtain ⟨m, rfl⟩ : ∃ m, k = m + 1 := ⟨k - 1, by omega⟩
    simp [key, MinHeap.at]
  have inv : DownInv (a :: t) 0 := by
    refine ⟨?_, ?_⟩
    · intro k hk0 hkl hp
      rw [hkey k hk0, hkey _ (by omega)]
      exact ho k hk0 (by simpa using hkl)
    · intro k _ _ _ h0
      omega
  have := downLoop_spec (a :: t).length (a :: t) 0 (by omega) (by simp) inv
  have e : Fix (a :: t) 0 = (downLoop (a :: t).length (a :: t) 0 (a :: t).length).1 := by
    unfold Fix down
    simp only [MinHeap.Len, up_zero]
    split_ifs <;> rfl
  rw [e]
  exact this

theorem Init_nil : Init [] = [] := by
  simp [Init, MinHeap.Len]

end heap

/-! ### The storage invariant -/

namespace storage
open heap

theorem HeapOrd_head_le (h : MinHeap) (ho : HeapOrd h) (m : Article) (t : MinHeap)
    (e : h = m :: t) : ∀ d ∈ h, m.NumComments ≤ d.NumComments := by
  intro d hd
  obtain ⟨n, hn, rfl⟩ := List.getElem_of_mem hd
  have := HeapOrd_root_le h ho n hn
  subst e
  simpa [key, MinHeap.at, List.getD_eq_getElem?_getD, List.getElem?_eq_getElem hn] using this

theorem elems_mk (l : Int) (d : MinHeap) :
    Storage.elems { limit := l, data := some d } = d := rfl

/-- `New` returns exactly for the capacities `makeslice` accepts, and then with
an empty, non-nil `data`. -/
theorem New_ok_iff (limit : Int) (s0 : Storage) :
    New limit = .ok s0 ↔
      (0 ≤ limit ∧ articleSize * limit ≤ maxAlloc) ∧
        s0 = { limit := limit, data := some [] } := by
  unfold New NewMinHeap
  split_ifs with hc
  · constructor
    · intro h; cases h
    · rintro ⟨⟨h1, h2⟩, _⟩
      rcases hc with hc | hc <;> omega
  · simp only [Init_nil, Except.ok.injEq]
    constructor
    · intro h
      exact ⟨⟨by omega, by omega⟩, h.symm⟩
    · rintro ⟨_, h⟩
      exact h.symm

/-- Capacities beyond `maxAlloc / articleSize` make `New` panic, as negative ones do. -/
theorem New_cap_out_of_range :
    New (2 ^ 44) = .error .makesliceCapOutOfRange ∧
    New (2 ^ 63 - 1) = .error .makesliceCapOutOfRange ∧
    New (-1) = .error .makesliceCapOutOfRange := by
  refine ⟨?_, ?_, ?_⟩ <;>
    simp only [New, NewMinHeap, articleSize, maxAlloc] <;> rw [if_pos (by omega)]

theorem Reach_New (K : Nat) (s0 : Storage) (h0 : New (K : Int) = .ok s0) :
    Reach K [] s0 := by
  obtain ⟨_, rfl⟩ := (New_ok_iff _ _).1 h0
  refine ⟨rfl, ?_, by simp [Storage.elems], ⟨[], by simp [Storage.elems], by simp⟩⟩
  intro k _ hk
  simp [Storage.elems] at hk

theorem Reach_Insert (K : Nat) (hK : 1 ≤ K) (xs : List Article) (s : Storage) (a : Article)
    (R : Reach K xs s) : ∃ s1, s.Insert a = .ok s1 ∧ Reach K (xs ++ [a]) s1 := by
  obtain ⟨hlim, hord, hlen, dropped, hperm, hbound⟩ := R
  have hlenp := hperm.length_eq
  simp only [List.length_append] at hlenp
  unfold Storage.Insert
  rw [hlim]
  by_cases hlt : s.elems.length < K
  · rw [if_pos (by exact_mod_cast hlt)]
    have hd : dropped = [] := by
      apply List.eq_nil_of_length_eq_zero
      omega
    subst hd
    obtain ⟨ho, hp⟩ := Push_spec s.elems a hord
    refine ⟨_, rfl, ⟨rfl, ho, ?_, ⟨[], ?_, by simp⟩⟩⟩
    · have := hp.length_eq
      simp only [elems_mk, List.length_append, List.length_cons,
        List.length_nil] at this ⊢
      omega
    · simp only [elems_mk, List.append_nil]
      refine hp.trans ?_
      have h1 : (s.elems).Perm xs := by simpa using hperm
      exact (List.Perm.cons a h1).trans (@List.perm_append_comm _ [a] _)
  · rw [if_neg (by exact_mod_cast hlt)]
    have hfull : s.elems.length = K := by omega
    cases hE : s.elems with
    | nil => rw [hE] at hfull; simp at hfull; omega
    | cons m t =>
      have hroot := HeapOrd_head_le s.elems hord m t hE
      simp only []
      by_cases hle : a.NumComments ≤ m.NumComments
      · rw [if_pos hle]
        refine ⟨s, rfl, ⟨hlim, hord, ?_, ⟨a :: dropped, ?_, ?_⟩⟩⟩
        · simp only [List.length_append, List.length_cons, List.length_nil]; omega
        · refine (List.perm_middle).trans ?_
          exact (List.Perm.cons a hperm).trans (@List.perm_append_comm _ [a] _)
        · intro r hr d hd
          rcases List.mem_cons.1 hr with e | hr
          · subst e; exact Nat.le_trans hle (hroot d hd)
          · exact hbound r hr d hd
      · rw [if_neg hle]
        have hordmt : HeapOrd (m :: t) := hE ▸ hord
        obtain ⟨ho, hp⟩ := Fix_root_spec a m t hordmt
        refine ⟨_, rfl, ⟨rfl, ho, ?_, ⟨m :: dropped, ?_, ?_⟩⟩⟩
        · have := hp.length_eq
          simp only [elems_mk, List.length_append, List.length_cons,
            List.length_nil] at this ⊢
          rw [hE] at hfull
          simp only [List.length_cons] at hfull
          omega
        · simp only [elems_mk]
          rw [hE] at hperm
          have h1 : (Fix (a :: t) 0 ++ m :: dropped).Perm (a :: t ++ m :: dropped) :=
            hp.append_right _
          have h2 : (a :: t ++ m :: dropped).Perm (a :: (m :: t ++ dropped)) := by
            simp only [List.cons_append]
            exact List.Perm.cons a List.perm_middle
          exact (h1.trans h2).trans
            ((List.Perm.cons a hperm).trans (@List.perm_append_comm _ [a] _))
        · intro r hr d hd
          simp only [elems_mk] at hd
          have hd2 : d ∈ a :: t := hp.mem_iff.1 hd
          have hrm : r.NumComments ≤ m.NumComments := by
            rcases List.mem_cons.1 hr with e | hr
            · subst e; exact Nat.le_refl _
            · exact hbound r hr m (by rw [hE]; exact List.mem_cons_self _ _)
          rcases List.mem_cons.1 hd2 with e | hdt
          · subst e; omega
          · have := hroot d (by rw [hE]; exact List.mem_cons_of_mem _ hdt)
            omega

theorem fill_ok_New (limit : Int) (xs : List Article) (s : Storage)
    (hs : fill limit xs = .ok s) : ∃ s0, New limit = .ok s0 := by
  unfold fill at hs
  cases hN : New limit with
  | error e => rw [hN] at hs; cases hs
  | ok s0 => exact ⟨s0, rfl⟩

theorem Reach_insertAll (K : Nat) (hK : 1 ≤ K) (ys : List Article) :
    ∀ (xs : List Article) (s : Storage), Reach K xs s →
      ∃ s1, s.insertAll ys = .ok s1 ∧ Reach K (xs ++ ys) s1 := by
  induction ys with
  | nil => intro xs s R; exact ⟨s, rfl, by simpa using R⟩
  | cons a as ih =>
    intro xs s R
    obtain ⟨s1, h1, R1⟩ := Reach_Insert K hK xs s a R
    obtain ⟨s2, h2, R2⟩ := ih (xs ++ [a]) s1 R1
    refine ⟨s2, ?_, by simpa using R2⟩
    simp only [Storage.insertAll, h1, h2]

theorem Reach_fill (K : Nat) (hK : 1 ≤ K) (xs : List Article) (s0 : Storage)
    (h0 : New (K : Int) = .ok s0) :
    ∃ s, fill (K : Int) xs = .ok s ∧ Reach K xs s := by
  have R0 := Reach_New K s0 h0
  obtain ⟨s, h1, R1⟩ := Reach_insertAll K hK xs [] s0 R0
  refine ⟨s, ?_, by simpa using R1⟩
  simp only [fill, h0, h1]

/-! ### Sorting by `NumComments` and the top-K specification -/

theorem byComments_strictWeak :
    StrictWeak (fun a b : Article => decide (a.NumComments > b.NumComments)) where
  irrefl := by intro a; simp
  trans := by
    intro a b c h1 h2
    simp only [gt_iff_lt, decide_eq_true_eq] at h1 h2 ⊢
    omega
  incompTrans := by
    intro a b c h1 h2
    simp only [gt_iff_lt, decide_eq_false_iff_not, not_lt] at h1 h2 ⊢
    omega

theorem sortedData_perm (srt : SliceSort) (s : Storage) :
    (s.sortedData srt).Perm s.elems := srt.perm _ _

theorem sortedData_desc (srt : SliceSort) (s : Storage) :
    (s.sortedData srt).Pairwise (fun a b => b.NumComments ≤ a.NumComments) := by
  have := srt.ordered _ s.elems byComments_strictWeak
  refine this.imp ?_
  intro a b h
  simpa using h

theorem topScores_of_split (K : Nat) (kept dropped xs : List Article)
    (hperm : (kept ++ dropped).Perm xs)
    (hb : ∀ r ∈ dropped, ∀ d ∈ kept, r.NumComments ≤ d.NumComments)
    (hlen : kept.length = min xs.length K) :
    (kept.map Article.NumComments).Perm (topScores K xs) := by
  have pA := List.perm_insertionSort (· ≥ ·) (kept.map Article.NumComments)
  have pB := List.perm_insertionSort (· ≥ ·) (dropped.map Article.NumComments)
  have sA := List.sorted_insertionSort (· ≥ ·) (kept.map Article.NumComments)
  have sB := List.sorted_insertionSort (· ≥ ·) (dropped.map Article.NumComments)
  have hS : List.Sorted (· ≥ ·)
      ((kept.map Article.NumComments).insertionSort (· ≥ ·) ++
        (dropped.map Article.NumComments).insertionSort (· ≥ ·)) := by
    refine List.pairwise_append.2 ⟨sA, sB, ?_⟩
    intro a ha b hb2
    obtain ⟨d, hd, rfl⟩ := List.mem_map.1 (pA.mem_iff.1 ha)
    obtain ⟨r, hr, rfl⟩ := List.mem_map.1 (pB.mem_iff.1 hb2)
    exact hb r hr d hd
  have hP : ((kept.map Article.NumComments).insertionSort (· ≥ ·) ++
        (dropped.map Article.NumComments).insertionSort (· ≥ ·)).Perm
      (xs.map Article.NumComments) := by
    refine (pA.append pB).trans ?_
    rw [← List.map_append]
    exact hperm.map _
  have heq : (xs.map Article.NumComments).insertionSort (· ≥ ·) =
      (kept.map Article.NumComments).insertionSort (· ≥ ·) ++
        (dropped.map Article.NumComments).insertionSort (· ≥ ·) :=
    List.eq_of_perm_of_sorted
      ((List.perm_insertionSort (· ≥ ·) _).trans hP.symm)
      (List.sorted_insertionSort (· ≥ ·) _) hS
  have hlA : ((kept.map Article.NumComments).insertionSort (· ≥ ·)).length = kept.length := by
    rw [pA.length_eq, List.length_map]
  have hlB : ((dropped.map Article.NumComments).insertionSort (· ≥ ·)).length
      = dropped.length := by
    rw [pB.length_eq, List.length_map]
  have hlx := hperm.length_eq
  simp only [List.length_append] at hlx
  unfold topScores
  rw [heq]
  by_cases hxK : xs.length ≤ K
  · have hd0 : dropped.length = 0 := by omega
    rw [List.take_of_length_le (by simp only [List.length_append, hlA, hlB]; omega)]
    have : dropped = [] := List.eq_nil_of_length_eq_zero hd0
    subst this
    simpa using pA.symm
  · rw [List.take_left' (by rw [hlA]; omega)]
    exact pA.symm

/-! ### Claims on the storage: C1, C2 -/

/-- C1: for every capacity `K >= 1`, every fresh storage `s0` returned by
`New(_, K)` and every sequence `xs` of articles inserted one after another into
it, the insertions all return, and `TopArticlesNames` returns exactly `min(len xs, K)` names; they are the names of a
sub-multiset `kept` of the inserted articles whose `NumComments` values are, as a
multiset, the `min(len xs, K)` largest `NumComments` values inserted. -/
theorem C1_top_articles_are_top_k (srt : SliceSort) (K : Nat) (hK : 1 ≤ K)
    (s0 : Storage) (h0 : New (K : Int) = .ok s0) (xs : List Article) :
    ∃ (s : Storage) (kept : List Article),
      fill (K : Int) xs = .ok s ∧
      (s.TopArticlesNames srt).1 = kept.map Article.Name ∧
      (s.TopArticlesNames srt).1.length = min xs.length K ∧
      kept.Subperm xs ∧
      (kept.map Article.NumComments).Perm (topScores K xs) := by
  obtain ⟨s, hs, R⟩ := Reach_fill K hK xs s0 h0
  obtain ⟨dropped, hperm, hbound⟩ := R.split
  have hp := sortedData_perm srt s
  have hperm2 : (s.sortedData srt ++ dropped).Perm xs := (hp.append_right _).trans hperm
  have hlen : (s.sortedData srt).length = min xs.length K := by
    rw [hp.length_eq]; exact R.len
  refine ⟨s, s.sortedData srt, hs, rfl, ?_, ?_, ?_⟩
  · simp only [Storage.TopArticlesNames, List.length_map]
    exact hlen
  · exact (List.sublist_append_left _ _).subperm.trans hperm2.subperm
  · refine topScores_of_split K _ dropped xs hperm2 ?_ hlen
    intro r hr d hd
    exact hbound r hr d (hp.mem_iff.1 hd)

/-- Witness for C1: capacity 2 and the three insertions of the repository's
replace-the-minimum test. -/
theorem C1_top_articles_are_top_k_witness :
    (1 ≤ 2) ∧ New ((2 : Nat) : Int) = .ok { limit := 2, data := some [] } ∧
    ∃ (s : Storage) (kept : List Article),
      fill ((2 : Nat) : Int) [⟨"a", 5⟩, ⟨"b", 10⟩, ⟨"c", 7⟩] = .ok s ∧
      (s.TopArticlesNames insertionSorter).1 = kept.map Article.Name ∧
      (s.TopArticlesNames insertionSorter).1.length
        = min ([⟨"a", 5⟩, ⟨"b", 10⟩, ⟨"c", 7⟩] : List Article).length 2 ∧
      kept.Subperm [⟨"a", 5⟩, ⟨"b", 10⟩, ⟨"c", 7⟩] ∧
      (kept.map Article.NumComments).Perm (topScores 2 [⟨"a", 5⟩, ⟨"b", 10⟩, ⟨"c", 7⟩]) :=
  ⟨by decide, rfl,
   C1_top_articles_are_top_k insertionSorter 2 (by decide) { limit := 2, data := some [] }
     rfl _⟩

/-- C2: for every capacity `K >= 1`, every fresh storage `s0` returned by
`New(_, K)` and every sequence of insertions into it, the insertions return and
the names `TopArticlesNames` returns are those of the retained entries in
descending rank order: along the sorted slice the names are read from, every
entry has at least the `NumComments` of the entry after it. -/
theorem C2_names_in_descending_order (srt : SliceSort) (K : Nat) (hK : 1 ≤ K)
    (s0 : Storage) (h0 : New (K : Int) = .ok s0) (xs : List Article) :
    ∃ s : Storage, fill (K : Int) xs = .ok s ∧
      (s.TopArticlesNames srt).1 = (s.sortedData srt).map Article.Name ∧
      (s.sortedData srt).Perm s.elems ∧
      (s.sortedData srt).Chain' (fun a b => a.NumComments ≥ b.NumComments) := by
  obtain ⟨s, hs, _⟩ := Reach_fill K hK xs s0 h0
  exact ⟨s, hs, rfl, sortedData_perm srt s, (sortedData_desc srt s).chain'⟩

/-- Witness for C2: capacity 3 and the five insertions of the repository's
keeps-only-top-N test. -/
theorem C2_names_in_descending_order_witness :
    (1 ≤ 3) ∧ New ((3 : Nat) : Int) = .ok { limit := 3, data := some [] } ∧
    ∃ s : Storage,
      fill ((3 : Nat) : Int) [⟨"a", 5⟩, ⟨"b", 10⟩, ⟨"c", 7⟩, ⟨"d", 2⟩, ⟨"e", 8⟩] = .ok s ∧
      (s.TopArticlesNames insertionSorter).1
        = (s.sortedData insertionSorter).map Article.Name ∧
      (s.sortedData insertionSorter).Perm s.elems ∧
      (s.sortedData insertionSorter).Chain' (fun a b => a.NumComments ≥ b.NumComments) :=
  ⟨by decide, rfl,
   C2_names_in_descending_order insertionSorter 3 (by decide) { limit := 3, data := some [] }
     rfl _⟩

/-! ### `Insert` returns on a storage of capacity at least 1 -/

theorem Insert_ok (s : Storage) (a : Article) (hl : 1 ≤ s.limit) :
    ∃ s1, s.Insert a = .ok s1 := by
  unfold Storage.Insert
  split_ifs with hlt
  · exact ⟨_, rfl⟩
  · cases hE : s.elems with
    | nil =>
      rw [hE] at hlt
      simp only [List.length_nil, Int.Nat.cast_ofNat_Int] at hlt
      omega
    | cons m t =>
      simp only []
      split_ifs
      · exact ⟨_, rfl⟩
      · exact ⟨_, rfl⟩

end storage

namespace articlesprocessor
open storage

/-! ### Claims on the processor: C3, C7, C8 -/

/-- C3 (rankability filter): on a storage of capacity at least 1, `processArticle`
calls `Insert` if and only if (Title or StoryTitle is present) and NumComments is
present.  When it does, it makes exactly that one `Insert`, of the entry named by
Title when Title is present and by StoryTitle otherwise; when it does not, the
storage is left as it was; in both cases the returned error is nil. -/
theorem C3_rankability_filter (st : Storage) (hl : 1 ≤ st.limit)
    (art : articlesapi.Article) :
    (((art.Title ≠ none ∨ art.StoryTitle ≠ none) ∧ art.NumComments ≠ none) →
      ∃ (name : String) (c : Int) (st1 : Storage),
        (art.Title = some name ∨ (art.Title = none ∧ art.StoryTitle = some name)) ∧
        art.NumComments = some c ∧
        st.Insert { Name := name, NumComments := uint64 c } = .ok st1 ∧
        processArticle st art = .ok (none, st1)) ∧
    (¬ ((art.Title ≠ none ∨ art.StoryTitle ≠ none) ∧ art.NumComments ≠ none) →
      processArticle st art = .ok (none, st)) := by
  obtain ⟨title, url, author, numComments, storyID, storyTitle, storyURL, parentID,
    createdAt⟩ := art
  cases title with
  | some t =>
    cases numComments with
    | none => simp [processArticle]
    | some c =>
      obtain ⟨st1, h1⟩ := Insert_ok st { Name := t, NumComments := uint64 c } hl
      refine ⟨fun _ => ⟨t, c, st1, Or.inl rfl, rfl, h1, ?_⟩, fun h => absurd ⟨Or.inl (by simp), by simp⟩ h⟩
      simp only [processArticle, h1]
  | none =>
    cases storyTitle with
    | none => simp [processArticle]
    | some t =>
      cases numComments with
      | none => simp [processArticle]
      | some c =>
        obtain ⟨st1, h1⟩ := Insert_ok st { Name := t, NumComments := uint64 c } hl
        refine ⟨fun _ => ⟨t, c, st1, Or.inr ⟨rfl, rfl⟩, rfl, h1, ?_⟩,
          fun h => absurd ⟨Or.inr (by simp), by simp⟩ h⟩
        simp only [processArticle, h1]

/-- Witness for C3: the first case of the repository's `processArticle` test
(both titles present, 10 comments) on a storage of capacity 10. -/
theorem C3_rankability_filter_witness :
    (1 ≤ (10 : Int)) ∧
    ∃ (name : String) (c : Int) (st1 : Storage),
      ((some "title-1" : Option String) = some name ∨
        ((some "title-1" : Option String) = none ∧
          (some "story-title-ignored" : Option String) = some name)) ∧
      (some 10 : Option Int) = some c ∧
      Storage.Insert { limit := 10, data := some [] }
        { Name := name, NumComments := uint64 c } = .ok st1 ∧
      processArticle { limit := 10, data := some [] }
        { Title := some "title-1", URL := "", Author := "", NumComments := some 10,
          StoryID := none, StoryTitle := some "story-title-ignored", StoryURL := none,
          ParentID := none, CreatedAt := none } = .ok (none, st1) :=
  ⟨by decide,
   (C3_rankability_filter { limit := 10, data := some [] } (by decide)
      { Title := some "title-1", URL := "", Author := "", NumComments := some 10,
        StoryID := none, StoryTitle := some "story-title-ignored", StoryURL := none,
        ParentID := none, CreatedAt := none }).1 ⟨Or.inl (by simp), by simp⟩⟩

theorem wrapInt64_of_inRange (x : Int) (h1 : -2 ^ 63 ≤ x) (h2 : x < 2 ^ 63) :
    wrapInt64 x = x := by
  unfold wrapInt64
  omega

theorem pagesDownToTwo_succ (k : Nat) :
    pagesDownToTwo (k + 2) = ((k : Int) + 2) :: pagesDownToTwo (k + 1) := by
  unfold pagesDownToTwo
  have e1 : k + 2 - 1 = (k + 1 - 1) + 1 := by omega
  rw [e1, List.range_succ_eq_map, List.map_cons, List.map_map]
  refine congrArg₂ _ (by push_cast; ring) ?_
  apply List.map_congr_left
  intro i _
  simp only [Function.comp]
  push_cast
  ring

theorem sendLoop_of_pos (k : Nat) : ∀ (fuel : Nat) (sent : List Int),
    ((k : Int) + 1) < 2 ^ 63 → k + 1 ≤ fuel →
    sendLoop fuel ((k : Int) + 1) sent = (sent ++ pagesDownToTwo (k + 1), true) := by
  induction k with
  | zero =>
    intro fuel sent _ hf
    obtain ⟨f, rfl⟩ : ∃ f, fuel = f + 1 := ⟨fuel - 1, by omega⟩
    simp [sendLoop, pagesDownToTwo]
  | succ k ih =>
    intro fuel sent hb hf
    obtain ⟨f, rfl⟩ : ∃ f, fuel = f + 1 := ⟨fuel - 1, by omega⟩
    have h0 : ¬ (((k + 1 : Nat) : Int) + 1 = 0) := by omega
    have h1 : ¬ (((k + 1 : Nat) : Int) + 1 = 1) := by omega
    have hw : wrapInt64 (((k + 1 : Nat) : Int) + 1 - 1) = (k : Int) + 1 := by
      rw [wrapInt64_of_inRange _ (by omega) (by omega)]
      push_cast
      ring
    rw [sendLoop, if_neg h0, if_neg h1, hw, ih f _ (by push_cast at hb; omega) (by omega),
      pagesDownToTwo_succ, List.append_assoc]
    simp only [List.singleton_append, Prod.mk.injEq, and_true, List.append_cancel_left_eq,
      List.cons.injEq]
    push_cast
    ring

theorem sendLoop_sent_prefix (fuel : Nat) : ∀ (pages : Int) (sent : List Int),
    ∃ rest, (sendLoop fuel pages sent).1 = sent ++ rest := by
  induction fuel with
  | zero => intro pages sent; exact ⟨[], by simp [sendLoop]⟩
  | succ fuel ih =>
    intro pages sent
    unfold sendLoop
    split_ifs
    · exact ⟨[], by simp⟩
    · exact ⟨[], by simp⟩
    · obtain ⟨rest, hr⟩ := ih (wrapInt64 (pages - 1)) (sent ++ [pages])
      exact ⟨pages :: rest, by rw [hr]; simp⟩

/-- C7 (page distribution): for every total page count `n >= 1` (a Go `int`),
`sendPagesToProcess` sends exactly `n, n-1, ..., 2` in that order (nothing when
`n = 1`; never page 1, no page twice), then closes the channel and returns nil;
`n` loop iterations are enough. -/
theorem C7_page_distribution (n : Nat) (hn : 1 ≤ n) (hmax : (n : Int) < 2 ^ 63)
    (fuel : Nat) (hf : n ≤ fuel) :
    sendPagesToProcess fuel (n : Int)
      = { sent := pagesDownToTwo n, closed := true, returned := some none } ∧
    (sendPagesToProcess fuel (n : Int)).sent.Nodup ∧
    (∀ p : Int, p ∈ (sendPagesToProcess fuel (n : Int)).sent ↔ 2 ≤ p ∧ p ≤ n) := by
  obtain ⟨k, rfl⟩ : ∃ k, n = k + 1 := ⟨n - 1, by omega⟩
  have h := sendLoop_of_pos k fuel [] (by push_cast at hmax; omega) hf
  have e : sendPagesToProcess fuel ((k + 1 : Nat) : Int)
      = { sent := pagesDownToTwo (k + 1), closed := true, returned := some none } := by
    unfold sendPagesToProcess
    push_cast
    rw [h]
    simp
  rw [e]
  refine ⟨rfl, ?_, ?_⟩
  · show (pagesDownToTwo (k + 1)).Nodup
    unfold pagesDownToTwo
    refine List.Nodup.map ?_ (List.nodup_range _)
    intro a b hab
    simp only at hab
    omega
  · intro p
    show p ∈ pagesDownToTwo (k + 1) ↔ _
    unfold pagesDownToTwo
    simp only [List.mem_map, List.mem_range]
    constructor
    · rintro ⟨i, hi, rfl⟩
      omega
    · intro hp
      refine ⟨(((k + 1 : Nat) : Int) - p).toNat, ?_, ?_⟩
      · omega
      · omega

/-- Witness for C7: five pages, the case of the repository's test. -/
theorem C7_page_distribution_witness :
    (1 ≤ 5) ∧ (((5 : Nat) : Int) < 2 ^ 63) ∧ (5 ≤ 5) ∧
    sendPagesToProcess 5 ((5 : Nat) : Int)
      = { sent := [5, 4, 3, 2], closed := true, returned := some none } :=
  ⟨by decide, by decide, by decide,
   (C7_page_distribution 5 (by decide) (by decide) 5 (by decide)).1⟩

/-- C8, evaluated at a negative page count: `sendPagesToProcess(-1)` does send
page indices, starting with -1 (then -2, -3, ...), and the channel is not closed
while it goes on; page counts 0 and 1 send nothing and close the channel. -/
theorem C8_negative_page_count_sends (fuel : Nat) :
    (sendPagesToProcess (fuel + 1) (-1)).sent.head? = some (-1) ∧
    sendPagesToProcess 3 (-1) = { sent := [-1, -2, -3], closed := false, returned := none } ∧
    sendPagesToProcess (fuel + 1) 0 = { sent := [], closed := true, returned := some none } ∧
    sendPagesToProcess (fuel + 1) 1 = { sent := [], closed := true, returned := some none } := by
  refine ⟨?_, by decide, by simp [sendPagesToProcess, sendLoop],
    by simp [sendPagesToProcess, sendLoop]⟩
  obtain ⟨rest, hr⟩ := sendLoop_sent_prefix fuel (wrapInt64 (-1 - 1)) ([] ++ [-1])
  have : (sendPagesToProcess (fuel + 1) (-1)).sent = [-1] ++ rest := by
    unfold sendPagesToProcess
    simp only [sendLoop]
    rw [if_neg (by decide), if_neg (by decide)]
    exact hr
  rw [this]
  rfl

end articlesprocessor

namespace storage

/-! ### Claims on the storage: C4, C5, C6 -/

/-- C4: in a storage reached from `New(_, K)`, `K >= 1`, by `Insert` calls and
holding exactly `K` entries, inserting an article whose `NumComments` is at most
every retained `NumComments` (hence at most the smallest) returns and changes
nothing: same entries at the same positions. -/
theorem C4_insert_at_most_min_is_noop (K : Nat) (hK : 1 ≤ K) (xs : List Article)
    (s : Storage) (hs : fill (K : Int) xs = .ok s) (hfull : s.elems.length = K)
    (a : Article) (hle : ∀ d ∈ s.elems, a.NumComments ≤ d.NumComments) :
    s.Insert a = .ok s := by
  obtain ⟨s0, h0⟩ := fill_ok_New _ xs s hs
  obtain ⟨s1, hs1, R⟩ := Reach_fill K hK xs s0 h0
  rw [hs] at hs1
  cases hs1
  unfold Storage.Insert
  rw [R.limit_eq, if_neg (by rw [hfull]; exact lt_irrefl _)]
  cases hE : s.elems with
  | nil => rw [hE] at hfull; simp at hfull; omega
  | cons m t =>
    simp only []
    rw [if_pos (hle m (by rw [hE]; exact List.mem_cons_self _ _))]

/-- Witness for C4: the repository's ignore-smaller-or-equal test (capacity 2
holding scores 5 and 10, then an article scored 5). -/
theorem C4_insert_at_most_min_is_noop_witness :
    Storage.Insert { limit := 2, data := some [⟨"a", 5⟩, ⟨"b", 10⟩] } ⟨"d", 5⟩
      = .ok { limit := 2, data := some [⟨"a", 5⟩, ⟨"b", 10⟩] } :=
  C4_insert_at_most_min_is_noop 2 (by decide) [⟨"a", 5⟩, ⟨"b", 10⟩]
    { limit := 2, data := some [⟨"a", 5⟩, ⟨"b", 10⟩] } rfl rfl ⟨"d", 5⟩
    (by simp [Storage.elems])

/-- C5 (draining twice): for every storage, whatever was inserted into it,
`TopArticlesNames` leaves `data` nil with length 0, and a second call returns
the empty list of names (the call is total: it cannot fail). -/
theorem C5_second_drain_is_empty (srt : SliceSort) (s : Storage) :
    (s.TopArticlesNames srt).2.data = none ∧
    (s.TopArticlesNames srt).2.elems.length = 0 ∧
    ((s.TopArticlesNames srt).2.TopArticlesNames srt).1 = [] := by
  refine ⟨rfl, rfl, ?_⟩
  have hp := sortedData_perm srt { s with data := none }
  have : Storage.sortedData srt { s with data := none } = [] := List.Perm.eq_nil hp
  simp only [Storage.TopArticlesNames, this, List.map_nil]

/-- C6, the claim refuted: `New` with limit 0 does not fail, it returns a storage. -/
theorem C6_New_zero_does_not_fail :
    New 0 = .ok { limit := 0, data := some [] } ∧ ¬ ∃ e, New 0 = .error e := by
  have h : New 0 = .ok { limit := 0, data := some [] } := rfl
  refine ⟨h, ?_⟩
  rintro ⟨e, he⟩
  rw [h] at he
  cases he

/-- C6 as amended: `New` with limit 0 returns a storage with limit 0 and no
entries; every `Insert` on that storage panics (index out of range); the zero
limit is turned down earlier, by `NewApp`, before the storage is built. -/
theorem C6_zero_limit_panics_on_insert (a : Article) :
    ∃ s : Storage, New 0 = .ok s ∧ s.limit = 0 ∧ s.elems = [] ∧
      s.Insert a = .error .indexOutOfRange ∧
      internal.NewApp 0 = .error .fatalNoLimit :=
  ⟨{ limit := 0, data := some [] }, rfl, rfl, rfl, rfl, rfl⟩

end storage

namespace internal

/-! ### Claim on start-up: C9 -/

/-- C9, evaluated at negative limits: a negative limit passes both checks of
`NewApp`, which goes on to `storage.New`; that call panics in `make`.  The
limits 0 and above 100 are turned down by the checks, and 1..100 build the App. -/
theorem C9_negative_limit_reaches_storage_New (n : Nat) :
    NewApp (-((n : Int) + 1)) = .error .makesliceCapOutOfRange ∧
    storage.New (-((n : Int) + 1)) = .error .makesliceCapOutOfRange ∧
    NewApp 0 = .error .fatalNoLimit ∧
    NewApp ((n : Int) + 101) = .error .fatalLimitOutOfRange := by
  have h0 : ¬ (-((n : Int) + 1) = 0) := by omega
  have h1 : ¬ (-((n : Int) + 1) > maxLimit) := by unfold maxLimit; omega
  have h2 : (-((n : Int) + 1)) < 0 := by omega
  have h3 : ¬ ((n : Int) + 101 = 0) := by omega
  have h4 : (n : Int) + 101 > maxLimit := by unfold maxLimit; omega
  have hN : storage.New (-((n : Int) + 1)) = .error .makesliceCapOutOfRange := by
    simp only [storage.New, storage.NewMinHeap, if_pos (Or.inl h2)]
  refine ⟨?_, hN, rfl, ?_⟩
  · simp only [NewApp, if_neg h0, if_neg h1, hN]
  · simp only [NewApp, if_neg h3, if_pos h4]

end internal

namespace storage
open heap

/-! ### Order of insertion: C11 -/

theorem topScores_perm_eq (K : Nat) (xs ys : List Article) (hp : xs.Perm ys) :
    topScores K xs = topScores K ys := by
  unfold topScores
  refine congrArg (List.take K) ?_
  refine List.eq_of_perm_of_sorted ?_
    (List.sorted_insertionSort (· ≥ ·) _) (List.sorted_insertionSort (· ≥ ·) _)
  exact (List.perm_insertionSort (· ≥ ·) _).trans
    ((hp.map _).trans (List.perm_insertionSort (· ≥ ·) _).symm)

theorem Reach_scores (K : Nat) (xs : List Article) (s : Storage) (R : Reach K xs s) :
    (s.elems.map Article.NumComments).Perm (topScores K xs) := by
  obtain ⟨dropped, hperm, hbound⟩ := R.split
  exact topScores_of_split K s.elems dropped xs hperm hbound R.len

theorem noTieAtCutOff_perm (K : Nat) (xs ys : List Article) (hp : xs.Perm ys)
    (hnt : noTieAtCutOff K xs) : noTieAtCutOff K ys := by
  intro v hv
  rw [← topScores_perm_eq K xs ys hp] at hv ⊢
  rw [← (hp.map Article.NumComments).count_eq v]
  exact hnt v hv

/-- Without a tie across the cut-off, the retained entries are exactly the
inserted articles whose score is among the `K` largest. -/
theorem Reach_elems_perm_filter (K : Nat) (xs : List Article) (s : Storage)
    (R : Reach K xs s) (hnt : noTieAtCutOff K xs) :
    s.elems.Perm (xs.filter (fun a => decide (a.NumComments ∈ topScores K xs))) := by
  obtain ⟨dropped, hperm, _⟩ := R.split
  have hsc := Reach_scores K xs s R
  have hkeep : ∀ a ∈ s.elems, decide (a.NumComments ∈ topScores K xs) = true := by
    intro a ha
    exact decide_eq_true (hsc.mem_iff.1 (List.mem_map_of_mem _ ha))
  have hdrop : ∀ r ∈ dropped, ¬ decide (r.NumComments ∈ topScores K xs) = true := by
    intro r hr hmem
    have hv : r.NumComments ∈ topScores K xs := of_decide_eq_true hmem
    have h1 := hnt _ hv
    have h2 := (hperm.map Article.NumComments).count_eq r.NumComments
    rw [List.map_append, List.count_append] at h2
    have h3 := hsc.count_eq r.NumComments
    have h4 : 0 < (dropped.map Article.NumComments).count r.NumComments :=
      List.count_pos_iff.2 (List.mem_map_of_mem _ hr)
    omega
  have hf : (s.elems ++ dropped).filter (fun a => decide (a.NumComments ∈ topScores K xs))
      = s.elems := by
    rw [List.filter_append, List.filter_eq_self.2 hkeep, List.filter_eq_nil_iff.2 hdrop,
      List.append_nil]
  have := hperm.filter (fun a => decide (a.NumComments ∈ topScores K xs))
  rw [hf] at this
  exact this

/-- C11, the claim refuted on a tie: with capacity 1, inserting `a` then `b`
(both with 5 comments) retains `a`, inserting `b` then `a` retains `b`; the two
sequences are permutations of one another, and the names returned, `["a"]` and
`["b"]`, differ whatever `sort.Slice` does.  The tie straddles the cut-off. -/
theorem C11_tie_kept_depends_on_order :
    ([⟨"a", 5⟩, ⟨"b", 5⟩] : List Article).Perm [⟨"b", 5⟩, ⟨"a", 5⟩] ∧
    fill 1 [⟨"a", 5⟩, ⟨"b", 5⟩] = .ok { limit := 1, data := some [⟨"a", 5⟩] } ∧
    fill 1 [⟨"b", 5⟩, ⟨"a", 5⟩] = .ok { limit := 1, data := some [⟨"b", 5⟩] } ∧
    (∀ srt : SliceSort,
      (Storage.TopArticlesNames srt { limit := 1, data := some [⟨"a", 5⟩] }).1 = ["a"] ∧
      (Storage.TopArticlesNames srt { limit := 1, data := some [⟨"b", 5⟩] }).1 = ["b"]) ∧
    ¬ ([⟨"a", 5⟩] : List Article).Perm [⟨"b", 5⟩] ∧
    ¬ (["a"] : List String).Perm ["b"] ∧
    ¬ noTieAtCutOff 1 [⟨"a", 5⟩, ⟨"b", 5⟩] := by
  refine ⟨List.Perm.swap _ _ _, rfl, rfl, ?_, by decide, by decide,
    by unfold noTieAtCutOff; decide⟩
  intro srt
  have h1 := sortedData_perm srt { limit := 1, data := some [⟨"a", 5⟩] }
  have h2 := sortedData_perm srt { limit := 1, data := some [⟨"b", 5⟩] }
  rw [elems_mk, List.perm_singleton] at h1 h2
  simp only [Storage.TopArticlesNames, h1, h2, List.map_cons, List.map_nil, and_self]

/-- C11 as amended: for every capacity `K >= 1`, every fresh storage returned by
`New(_, K)` and two insertion sequences that are permutations of one another,
both fills return, the retained `NumComments` values are the same multiset and
`TopArticlesNames` returns equally many names; when no tie straddles the cut-off
(no article outside the `K` largest scores shares its score with one inside), the
same articles are retained and `TopArticlesNames` returns the same names up to
order. -/
theorem C11_order_insensitive_up_to_ties (srt : SliceSort) (K : Nat) (hK : 1 ≤ K)
    (s0 : Storage) (h0 : New (K : Int) = .ok s0)
    (xs ys : List Article) (hp : xs.Perm ys) :
    ∃ s1 s2 : Storage, fill (K : Int) xs = .ok s1 ∧ fill (K : Int) ys = .ok s2 ∧
      (s1.elems.map Article.NumComments).Perm (s2.elems.map Article.NumComments) ∧
      (s1.TopArticlesNames srt).1.length = (s2.TopArticlesNames srt).1.length ∧
      (noTieAtCutOff K xs →
        s1.elems.Perm s2.elems ∧
        (s1.TopArticlesNames srt).1.Perm (s2.TopArticlesNames srt).1) := by
  obtain ⟨s1, hs1, R1⟩ := Reach_fill K hK xs s0 h0
  obtain ⟨s2, hs2, R2⟩ := Reach_fill K hK ys s0 h0
  have hsc : (s1.elems.map Article.NumComments).Perm (s2.elems.map Article.NumComments) := by
    refine (Reach_scores K xs s1 R1).trans ?_
    rw [topScores_perm_eq K xs ys hp]
    exact (Reach_scores K ys s2 R2).symm
  have hlen : (s1.TopArticlesNames srt).1.length = (s2.TopArticlesNames srt).1.length := by
    simp only [Storage.TopArticlesNames, List.length_map]
    rw [(sortedData_perm srt s1).length_eq, (sortedData_perm srt s2).length_eq]
    simpa using hsc.length_eq
  refine ⟨s1, s2, hs1, hs2, hsc, hlen, ?_⟩
  intro hnt
  have hel : s1.elems.Perm s2.elems := by
    refine (Reach_elems_perm_filter K xs s1 R1 hnt).trans ?_
    have h2 := Reach_elems_perm_filter K ys s2 R2 (noTieAtCutOff_perm K xs ys hp hnt)
    rw [← topScores_perm_eq K xs ys hp] at h2
    exact (hp.filter _).trans h2.symm
  refine ⟨hel, ?_⟩
  simp only [Storage.TopArticlesNames]
  exact (((sortedData_perm srt s1).trans hel).trans (sortedData_perm srt s2).symm).map _

/-- Witness for C11 as amended: capacity 2, two articles tied at 10 comments
inside the top 2 and one article with 1 comment, in two orders. -/
theorem C11_order_insensitive_up_to_ties_witness :
    (1 ≤ 2) ∧ New ((2 : Nat) : Int) = .ok { limit := 2, data := some [] } ∧
    ([⟨"a", 10⟩, ⟨"b", 10⟩, ⟨"c", 1⟩] : List Article).Perm
        [⟨"c", 1⟩, ⟨"b", 10⟩, ⟨"a", 10⟩] ∧
    noTieAtCutOff 2 [⟨"a", 10⟩, ⟨"b", 10⟩, ⟨"c", 1⟩] ∧
    ∃ s1 s2 : Storage,
      fill ((2 : Nat) : Int) [⟨"a", 10⟩, ⟨"b", 10⟩, ⟨"c", 1⟩] = .ok s1 ∧
      fill ((2 : Nat) : Int) [⟨"c", 1⟩, ⟨"b", 10⟩, ⟨"a", 10⟩] = .ok s2 ∧
      s1.elems.Perm s2.elems ∧
      (s1.TopArticlesNames insertionSorter).1.Perm (s2.TopArticlesNames insertionSorter).1 := by
  have hnt : noTieAtCutOff 2 [⟨"a", 10⟩, ⟨"b", 10⟩, ⟨"c", 1⟩] := by
    unfold noTieAtCutOff
    decide
  obtain ⟨s1, s2, h1, h2, _, _, himp⟩ :=
    C11_order_insensitive_up_to_ties insertionSorter 2 (by decide)
      { limit := 2, data := some [] } rfl
      [⟨"a", 10⟩, ⟨"b", 10⟩, ⟨"c", 1⟩] [⟨"c", 1⟩, ⟨"b", 10⟩, ⟨"a", 10⟩] (by decide)
  exact ⟨by decide, rfl, by decide, hnt, s1, s2, h1, h2, himp hnt⟩

end storage

namespace articlesprocessor
open storage

/-! ### Score conversion: C12 -/

theorem uint64_of_inRange (c : Int) (hlo : -2 ^ 63 ≤ c) (hhi : c < 2 ^ 63) :
    ((uint64 c : Nat) : Int) = if 0 ≤ c then c else c + 2 ^ 64 := by
  unfold uint64
  split_ifs <;> omega

/-- C12 (score conversion): for a rankable article whose `num_comments` is the
64-bit signed integer `c`, `processArticle` hands `Insert` the entry whose score is
`uint64(c)`, which is `c` when `c >= 0` and `c + 2^64` when `c < 0`; so among
non-negative counts the order of scores is the order of counts, and a negative
count gets a score above that of every non-negative count. -/
theorem C12_score_conversion (st : Storage) (hl : 1 ≤ st.limit)
    (art : articlesapi.Article) (name : String) (c : Int)
    (hname : art.Title = some name ∨ (art.Title = none ∧ art.StoryTitle = some name))
    (hc : art.NumComments = some c) (hlo : -2 ^ 63 ≤ c) (hhi : c < 2 ^ 63) :
    (∃ st1 : Storage,
      st.Insert { Name := name, NumComments := uint64 c } = .ok st1 ∧
      processArticle st art = .ok (none, st1)) ∧
    ((uint64 c : Nat) : Int) = (if 0 ≤ c then c else c + 2 ^ 64) ∧
    (∀ c2 : Int, 0 ≤ c → 0 ≤ c2 → c2 < 2 ^ 63 →
      ((c ≤ c2 ↔ uint64 c ≤ uint64 c2) ∧ (c < c2 ↔ uint64 c < uint64 c2))) ∧
    (∀ c2 : Int, c < 0 → 0 ≤ c2 → c2 < 2 ^ 63 → uint64 c2 < uint64 c) := by
  have hu := uint64_of_inRange c hlo hhi
  refine ⟨?_, hu, ?_, ?_⟩
  · obtain ⟨st1, h1⟩ := Insert_ok st { Name := name, NumComments := uint64 c } hl
    refine ⟨st1, h1, ?_⟩
    obtain ⟨title, url, author, numComments, storyID, storyTitle, storyURL, parentID,
      createdAt⟩ := art
    simp only at hname hc
    subst hc
    rcases hname with ht | ⟨ht, hs⟩
    · subst ht
      simp only [processArticle, h1]
    · subst ht
      subst hs
      simp only [processArticle, h1]
  · intro c2 h0 h20 h2hi
    have hu2 := uint64_of_inRange c2 (by omega) h2hi
    rw [if_pos h0] at hu
    rw [if_pos h20] at hu2
    constructor <;> constructor <;> intro h <;> omega
  · intro c2 hneg h20 h2hi
    have hu2 := uint64_of_inRange c2 (by omega) h2hi
    rw [if_neg (by omega)] at hu
    rw [if_pos h20] at hu2
    omega

/-- Witness for C12: an article titled "t" with `num_comments = -1` on a storage
of capacity 10; its score is `2^64 - 1`. -/
theorem C12_score_conversion_witness :
    (1 ≤ (10 : Int)) ∧ (-2 ^ 63 ≤ (-1 : Int)) ∧ ((-1 : Int) < 2 ^ 63) ∧
    ((uint64 (-1) : Nat) : Int) = (if 0 ≤ (-1 : Int) then (-1 : Int) else -1 + 2 ^ 64) ∧
    (∀ c2 : Int, (-1 : Int) < 0 → 0 ≤ c2 → c2 < 2 ^ 63 → uint64 c2 < uint64 (-1)) :=
  ⟨by decide, by decide, by decide,
   (C12_score_conversion { limit := 10, data := some [] } (by decide)
      { Title := some "t", URL := "", Author := "", NumComments := some (-1),
        StoryID := none, StoryTitle := none, StoryURL := none,
        ParentID := none, CreatedAt := none } "t" (-1) (Or.inl rfl) rfl
      (by decide) (by decide)).2.1,
   (C12_score_conversion { limit := 10, data := some [] } (by decide)
      { Title := some "t", URL := "", Author := "", NumComments := some (-1),
        StoryID := none, StoryTitle := none, StoryURL := none,
        ParentID := none, CreatedAt := none } "t" (-1) (Or.inl rfl) rfl
      (by decide) (by decide)).2.2.2⟩

end articlesprocessor

end ArticlesService
